import Mathlib

/-!
Verification of the PennyLane-Forest QVM device post-processing.

A shallow embedding, in Lean 4, of the measurement post-processing logic of
`pennylane_forest/qvm.py` (class `QVMDevice`), together with theorems settling
the specification claims about it.

Modelling conventions:
* Measurement bits are `Bool` (`false` = 0, `true` = 1); the measurement
  column of a wire (`self.state[w]`, a length-`shots` array of bits) is a
  `List Bool`, and the whole measurement state (`self.state`, a dict from
  wire index to column) is a total function `ℕ → List Bool`.
* Floating-point numbers are modelled as exact rationals `ℚ`; complex matrix
  entries are pairs `(re, im) : ℚ × ℚ`.  A matrix is its row-major list of
  rows; `flatten` (numpy `H.flatten()`) is `List.flatten`.
* `np.linalg.eigh` is an external numerical routine; it is modelled as an
  abstract parameter `eigh : Mat → List ℚ × Mat` (eigenvalues, eigenvector
  matrix) threaded through the definitions that call it.
* The eigen-cache `self._eigs` (a Python dict, written only with fresh keys)
  is an association list `List (Key × EigData)`; a fresh insertion appends.
* A Python function that can fall off the end returns `PyResult.pyNone`
  (implicit `return None` in Python); a dict lookup on a missing key gives
  `PyResult.keyError` (a Python `KeyError`).
-/
namespace QVM

/-- A complex number as an exact pair (real part, imaginary part). -/
abbrev CQ : Type := ℚ × ℚ

/-- Complex conjugation on `(re, im)` pairs. -/
def cconj (z : CQ) : CQ := (z.1, -z.2)

/-- A matrix as a row-major list of rows (numpy 2-D array). -/
abbrev Mat : Type := List (List CQ)

/-- The matrix `M.conj().T`: entrywise conjugate followed by transpose. -/
def conjT (M : Mat) : Mat := (M.map (fun row => row.map cconj)).transpose

/-- Numpy `H.flatten()`: row-major flattening of a matrix, the eigen-cache key
`tuple(H.flatten().tolist())`. -/
def flatten (M : Mat) : List CQ := M.flatten

/-- Eigen-cache key: the flattened tuple of the matrix entries. -/
abbrev Key : Type := List CQ

/-- A cached eigendecomposition: `{"eigval": w, "eigvec": U}`. -/
structure EigData where
  eigval : List ℚ
  eigvec : Mat
  deriving DecidableEq

/-- The eigen-cache `self._eigs`: a dict from flattened-matrix keys to
eigendecompositions, as an association list. -/
abbrev Cache : Type := List (Key × EigData)

/-- Dict lookup `self._eigs[Hkey]` (first entry with the given key). -/
def findEntry : Cache → Key → Option EigData
  | [], _ => none
  | (k, d) :: rest, key => if k = key then some d else findEntry rest key

/-- The value `1 - 2*bit` turning a 0/1 measurement bit into a ±1 sample. -/
def pmVal (b : Bool) : ℚ := 1 - 2 * (if b then 1 else 0)

/-- Numpy `np.mean`: the arithmetic mean of a list (0 when the list is empty). -/
def mean (xs : List ℚ) : ℚ := xs.sum / xs.length

/-- Numpy `np.var` (population variance, ddof = 0): mean squared deviation. -/
def variance (xs : List ℚ) : ℚ := mean (xs.map (fun x => (x - mean xs) ^ 2))

/-- The dot product `w @ p` of two equal-length vectors. -/
def dot (w p : List ℚ) : ℚ := (List.zipWith (fun a b => a * b) w p).sum

/-- Result of a Python method call: a returned value, an implicit
`return None` (falling off the end of the function), or a `KeyError` raised
by a dict lookup on a missing key. -/
inductive PyResult (α : Type) where
  | ok : α → PyResult α
  | pyNone : PyResult α
  | keyError : PyResult α
  deriving DecidableEq

/-- Row `i` of `res = np.array([self.state[w] for w in wires]).T`: the bits of
shot `s`, one per listed wire, in wire-list order. -/
def shotRow (st : ℕ → List Bool) (wires : List ℕ) (s : ℕ) : List Bool :=
  wires.map (fun w => (st w).getD s false)

/-- The quantity `np.sum(2 ** np.arange(len(wires) - 1, -1, -1) * i)`: the basis-state
index of the bit row of one shot, first listed wire most significant. -/
def basisIndex (row : List Bool) : ℕ :=
  (List.zipWith (fun (e : ℕ) (b : Bool) => 2 ^ e * (if b then 1 else 0))
    (List.range row.length).reverse row).sum

/-- Method `QVMDevice.probabilities(wires)`: tally, over each of the `shots` rows of
the measured-bit array, the basis-state index of the row, then divide by the
shot count.  (The source stores the tallies next to a first column holding
`np.arange(2 ** len(wires))` and sorts by that column before dividing; the
column is already sorted, so the sort is the identity permutation and only the
tally column survives.) -/
def probabilities (st : ℕ → List Bool) (shots : ℕ) (wires : List ℕ) : List ℚ :=
  let res := (List.range shots).map (shotRow st wires)
  let counts := res.foldl
    (fun acc row => Function.update acc (basisIndex row) (acc (basisIndex row) + 1))
    (fun _ => (0 : ℕ))
  (List.range (2 ^ wires.length)).map (fun k => (counts k : ℚ) / shots)

/-- Method `QVMDevice.expval(observable, wires, par)`.  `par` holds the Hermitian
matrix (when there is one) as `par.headI`. -/
def expval (st : ℕ → List Bool) (shots : ℕ) (cache : Cache)
    (observable : String) (wires : List ℕ) (par : List Mat) : PyResult ℚ :=
  if wires.length = 1 then
    let evZ := mean ((st wires.headI).map pmVal)
    let p0 := (1 + evZ) / 2
    let p1 := (1 - evZ) / 2
    if observable = "Identity" then .ok (p0 + p1)
    else if observable = "Hermitian" then
      match findEntry cache (flatten par.headI) with
      | some d => .ok (d.eigval.getD 0 0 * p0 + d.eigval.getD 1 0 * p1)
      | none => .keyError
    else .ok evZ
  else
    -- multi-qubit observable: only the Hermitian case returns a value
    let probs := probabilities st shots wires
    if observable = "Hermitian" then
      match findEntry cache (flatten par.headI) with
      | some d => .ok (dot d.eigval probs)
      | none => .keyError
    else .pyNone

/-- The trailing "multi-qubit observable" section of `QVMDevice.var`, which is
also reached when a single-wire observable matches none of the single-wire
branches (that block ends without a `return`). -/
def varTail (st : ℕ → List Bool) (shots : ℕ) (cache : Cache)
    (observable : String) (wires : List ℕ) (par : List Mat) : PyResult ℚ :=
  let probs := probabilities st shots wires
  if observable = "Hermitian" then
    match findEntry cache (flatten par.headI) with
    | some d => .ok (dot (d.eigval.map (fun x => x ^ 2)) probs - (dot d.eigval probs) ^ 2)
    | none => .keyError
  else .pyNone

/-- Method `QVMDevice.var(observable, wires, par)`. -/
def var (st : ℕ → List Bool) (shots : ℕ) (cache : Cache)
    (observable : String) (wires : List ℕ) (par : List Mat) : PyResult ℚ :=
  if wires.length = 1 then
    if observable = "Identity" then .ok 0
    else
      let varZ := variance ((st wires.headI).map pmVal)
      if observable = "PauliX" ∨ observable = "PauliY" ∨ observable = "PauliZ" ∨
          observable = "Hadamard" then .ok varZ
      else
        let evZ := mean ((st wires.headI).map pmVal)
        let probs := [(1 + evZ) / 2, (1 - evZ) / 2]
        if observable = "Hermitian" then
          match findEntry cache (flatten par.headI) with
          | some d =>
              .ok (dot (d.eigval.map (fun x => x ^ 2)) probs - (dot d.eigval probs) ^ 2)
          | none => .keyError
        else varTail st shots cache observable wires par
  else varTail st shots cache observable wires par

/-- An entry of the observable queue `self.obs_queue`: a name, the wires it
acts on, and (for `"Hermitian"`) its matrix parameter as `par.headI`. -/
structure Observable where
  name : String
  wires : List ℕ
  par : List Mat

/-- A gate application recorded by `self.apply(name, wires, par)` during
`pre_measure`.  The only parametrised rotation applied there is
`RY(-np.pi / 4)`; its angle is kept symbolically as a rational multiple of π
(`ryPi wires c` stands for `RY(c · π)` on `wires`), so that gate lists stay
decidable. -/
inductive GateApp where
  | g : String → List ℕ → GateApp
  | ryPi : List ℕ → ℚ → GateApp
  | qubitUnitary : List ℕ → Mat → GateApp
  deriving DecidableEq

/-- The `"Hermitian"` branch of `pre_measure`: look the flattened matrix up in
the eigen-cache; on a hit reuse the stored eigenvectors, on a miss call
`np.linalg.eigh` and store the result under the flattened key.  Returns the
eigendecomposition used and the updated cache. -/
def processHermitian (eigh : Mat → List ℚ × Mat) (cache : Cache) (H : Mat) :
    EigData × Cache :=
  let key := flatten H
  match findEntry cache key with
  | some d => (d, cache)
  | none =>
      let wU := eigh H
      let d : EigData := ⟨wU.1, wU.2⟩
      (d, cache ++ [(key, d)])

/-- The basis-rotation gates `pre_measure` appends for one queued observable,
together with the eigen-cache after processing it. -/
def gatesForObs (eigh : Mat → List ℚ × Mat) (cache : Cache) (e : Observable) :
    List GateApp × Cache :=
  if e.name = "PauliX" then
    ([.g "Hadamard" e.wires], cache)
  else if e.name = "PauliY" then
    ([.g "PauliZ" e.wires, .g "S" e.wires, .g "Hadamard" e.wires], cache)
  else if e.name = "Hadamard" then
    ([.ryPi e.wires (-1 / 4)], cache)
  else if e.name = "Hermitian" then
    let dc := processHermitian eigh cache e.par.headI
    ([.qubitUnitary e.wires (conjT dc.1.eigvec)], dc.2)
  else
    ([], cache)

/-- The basis-rotation loop of `pre_measure` over the whole observable queue:
the concatenated gate applications and the final eigen-cache. -/
def preMeasureGates (eigh : Mat → List ℚ × Mat) :
    List Observable → Cache → List GateApp × Cache
  | [], cache => ([], cache)
  | e :: rest, cache =>
      let gc := gatesForObs eigh cache e
      let gcRest := preMeasureGates eigh rest gc.2
      (gc.1 ++ gcRest.1, gcRest.2)

/-- The `device` argument of `QVMDevice.__init__`: a NetworkX topology graph
(abstracted to its node count, the only attribute the constructor reads), a
device-name string, or a value of any other type. -/
inductive DeviceArg where
  | graph : ℕ → DeviceArg
  | str : String → DeviceArg
  | other : DeviceArg

/-- One attempt of `re.search(r"(\d+)(q|Q)", s)` at a fixed start position:
succeeds iff the position starts with a non-empty digit run whose maximal
extent is immediately followed by `q` or `Q`, returning the value of the run. -/
def matchQubitsAt (cs : List Char) : Option ℕ :=
  let ds := cs.takeWhile Char.isDigit
  if ds = [] then none
  else
    match cs.dropWhile Char.isDigit with
    | c :: _ =>
        if c = 'q' ∨ c = 'Q' then
          some (ds.foldl (fun n c => 10 * n + (c.toNat - '0'.toNat)) 0)
        else none
    | [] => none

/-- Python `re.search(r"(\d+)(q|Q)", s)`: try every start position left to right and
return the group-1 value of the leftmost match. -/
def searchQubits : List Char → Option ℕ
  | [] => none
  | c :: rest =>
      match matchQubitsAt (c :: rest) with
      | some n => some n
      | none => searchQubits rest

/-- The validation part of `QVMDevice.__init__`: returns the wire count
`num_wires`, or the message of the `ValueError` raised. -/
def qvmInit (device : DeviceArg) (shots : ℤ) : Except String ℕ :=
  if shots ≤ 0 then
    .error "Number of shots must be a positive integer."
  else
    match device with
    | .graph n => .ok n
    | .str s =>
        match searchQubits s.toList with
        | some n => .ok n
        | none => .error "QVM device string does not indicate the number of qubits!"
    | .other =>
        .error "Required argument device must be a string corresponding to a valid QVM quantum computer, or a NetworkX graph object."

/-- Modelled from the spec: `sample(observable, wires, par, n)` is defined on
`ForestDevice` in `device.py`, a file absent from the sources; per the
Sampling paragraph of the spec it "returns the raw ±1 (for simple observables) or
eigenvalue-valued (for Hermitian, via basis-state index lookup into the
eigenvalue array) per-shot outcomes, truncated or validated against a
requested sample count `n`", and "fails when `n` is zero, negative, or
non-integral".  The requested count is a Python number, modelled as `n : ℚ`
with integrality meaning denominator 1. -/
def sample (st : ℕ → List Bool) (shots : ℕ) (cache : Cache)
    (observable : String) (wires : List ℕ) (par : List Mat) (n : ℚ) :
    Except String (List ℚ) :=
  if n ≤ 0 ∨ n.den ≠ 1 then
    .error "The number of samples must be a positive integer."
  else
    let m := n.num.toNat
    if observable = "Hermitian" then
      match findEntry cache (flatten par.headI) with
      | some d =>
          .ok (((List.range shots).map
            (fun s => d.eigval.getD (basisIndex (shotRow st wires s)) 0)).take m)
      | none => .error "KeyError"
    else
      .ok (((st wires.headI).map pmVal).take m)

/-- The description in the claim of a parseable device string: it contains a
substring of digits immediately followed by `q` or `Q`. -/
def hasQubitSubstring (cs : List Char) : Prop :=
  ∃ pre ds c rest, cs = pre ++ ds ++ c :: rest ∧ ds ≠ [] ∧
    (∀ x ∈ ds, x.isDigit) ∧ (c = 'q' ∨ c = 'Q')

/-! ## Helper lemmas about `basisIndex` and the tally in `probabilities` -/

lemma basisIndex_nil : basisIndex [] = 0 := rfl

lemma basisIndex_cons (b : Bool) (row : List Bool) :
    basisIndex (b :: row) = 2 ^ row.length * (if b then 1 else 0) + basisIndex row := by
  simp only [basisIndex, List.length_cons, List.range_succ, List.reverse_append,
    List.reverse_cons, List.reverse_nil, List.nil_append, List.cons_append,
    List.zipWith_cons_cons, List.sum_cons]

lemma basisIndex_lt (row : List Bool) : basisIndex row < 2 ^ row.length := by
  induction row with
  | nil => simp [basisIndex_nil]
  | cons b row ih =>
      rw [basisIndex_cons]
      cases b <;> simp [pow_succ] <;> omega

lemma length_shotRow (st : ℕ → List Bool) (wires : List ℕ) (s : ℕ) :
    (shotRow st wires s).length = wires.length := by
  simp [shotRow]

lemma foldl_update_count (rows : List (List Bool)) (acc : ℕ → ℕ) (k : ℕ) :
    (rows.foldl
      (fun a row => Function.update a (basisIndex row) (a (basisIndex row) + 1)) acc) k
      = acc k + (rows.filter (fun r => basisIndex r = k)).length := by
  induction rows generalizing acc with
  | nil => simp
  | cons r rows ih =>
      rw [List.foldl_cons, ih]
      by_cases h : basisIndex r = k
      · subst h
        simp [List.filter_cons, Function.update_same]
        omega
      · simp [List.filter_cons, h, Function.update_noteq (Ne.symm h)]

lemma sum_range_filter_count (rows : List (List Bool)) (M : ℕ)
    (h : ∀ r ∈ rows, basisIndex r < M) :
    ∑ k ∈ Finset.range M, (rows.filter (fun r => basisIndex r = k)).length
      = rows.length := by
  induction rows with
  | nil => simp
  | cons r rows ih =>
      have hr : basisIndex r ∈ Finset.range M := by
        simpa using h r (by simp)
      have ih' := ih (fun r' hr' => h r' (by simp [hr']))
      calc ∑ k ∈ Finset.range M, ((r :: rows).filter (fun x => basisIndex x = k)).length
          = ∑ k ∈ Finset.range M,
              ((if basisIndex r = k then 1 else 0)
                + (rows.filter (fun x => basisIndex x = k)).length) := by
            refine Finset.sum_congr rfl (fun k _ => ?_)
            by_cases hbk : basisIndex r = k
            · simp [List.filter_cons, hbk]; omega
            · simp [List.filter_cons, hbk]
        _ = (∑ k ∈ Finset.range M, if basisIndex r = k then 1 else 0)
              + ∑ k ∈ Finset.range M, (rows.filter (fun x => basisIndex x = k)).length :=
            Finset.sum_add_distrib
        _ = 1 + rows.length := by rw [Finset.sum_ite_eq _ _ (fun _ => 1), if_pos hr, ih']
        _ = (r :: rows).length := by simp [Nat.add_comm]

lemma sum_map_range (f : ℕ → ℚ) (n : ℕ) :
    ((List.range n).map f).sum = ∑ i ∈ Finset.range n, f i := by
  induction n with
  | zero => simp
  | succ n ih => rw [List.range_succ]; simp [ih, Finset.sum_range_succ]

/-- The tally in `probabilities`, characterised: the count stored at `k` is
the number of shots whose bit row encodes the basis state `k`. -/
lemma probabilities_getD (st : ℕ → List Bool) (shots : ℕ) (wires : List ℕ)
    (k : ℕ) (hk : k < 2 ^ wires.length) :
    (probabilities st shots wires).getD k 0 =
      (((List.range shots).filter
          (fun s => basisIndex (shotRow st wires s) = k)).length : ℚ) / shots := by
  unfold probabilities
  rw [List.getD_eq_getElem?_getD, List.getElem?_map, List.getElem?_range hk]
  simp only [Option.map_some', Option.getD_some, foldl_update_count, List.filter_map,
    List.length_map, Nat.zero_add]
  rfl

lemma probabilities_length (st : ℕ → List Bool) (shots : ℕ) (wires : List ℕ) :
    (probabilities st shots wires).length = 2 ^ wires.length := by
  simp [probabilities]

lemma probabilities_sum (st : ℕ → List Bool) (shots : ℕ) (wires : List ℕ)
    (hs : 0 < shots) :
    (probabilities st shots wires).sum = 1 := by
  unfold probabilities
  rw [sum_map_range]
  have hcount : ∀ k,
      ((List.range shots).map (shotRow st wires)).foldl
        (fun a row => Function.update a (basisIndex row) (a (basisIndex row) + 1))
        (fun _ => 0) k
      = ((((List.range shots).map (shotRow st wires)).filter
          (fun r => basisIndex r = k)).length) := by
    intro k; rw [foldl_update_count]; simp
  simp only [hcount]
  rw [← Finset.sum_div]
  rw [← Nat.cast_sum]
  rw [sum_range_filter_count _ _ (fun r hr => ?_)]
  · simp [Nat.div_self]
    rw [div_self]
    exact_mod_cast hs.ne'
  · obtain ⟨s, _, rfl⟩ := List.mem_map.mp hr
    rw [← length_shotRow st wires s]
    exact basisIndex_lt _

lemma mean_map_replicate_pmVal (n : ℕ) (hn : 0 < n) (b : Bool) :
    mean ((List.replicate n b).map pmVal) = pmVal b := by
  simp only [mean, List.map_replicate, List.sum_replicate, List.length_replicate,
    nsmul_eq_mul]
  have hn' : (n : ℚ) ≠ 0 := by exact_mod_cast hn.ne'
  field_simp

lemma expval_single_plain (st : ℕ → List Bool) (shots : ℕ) (cache : Cache)
    (name : String) (q : ℕ) (par : List Mat)
    (hni : name ≠ "Identity") (hnh : name ≠ "Hermitian") :
    expval st shots cache name [q] par = .ok (mean ((st q).map pmVal)) := by
  simp [expval, hni, hnh]

/-! ## Claim theorems -/

/-- C2: for a non-empty wire list of length `N` and a measurement state
assigning each listed wire a `shots`-bit column, `probabilities` returns a
vector of length `2 ^ N` whose entry at index `k` is the number of shots whose
bit row (first listed wire most significant) encodes `k`, divided by the shot
count; the entries sum to 1 and the vector is ordered by increasing
basis-state index. -/
theorem probabilities_correct (st : ℕ → List Bool) (shots : ℕ) (wires : List ℕ)
    (hw : wires ≠ []) (hs : 0 < shots)
    (hlen : ∀ w ∈ wires, (st w).length = shots) :
    (probabilities st shots wires).length = 2 ^ wires.length ∧
    (∀ k, k < 2 ^ wires.length →
      (probabilities st shots wires).getD k 0 =
        (((List.range shots).filter
            (fun s => basisIndex (shotRow st wires s) = k)).length : ℚ) / shots) ∧
    (probabilities st shots wires).sum = 1 :=
  ⟨probabilities_length st shots wires,
   fun k hk => probabilities_getD st shots wires k hk,
   probabilities_sum st shots wires hs⟩

/-- Witness for C2 at a concrete two-wire, two-shot state. -/
theorem probabilities_correct_witness :
    (probabilities (fun w => if w = 0 then [false, true] else [true, true]) 2
        [0, 1]).length = 2 ^ 2 ∧
    (∀ k, k < 2 ^ ([0, 1] : List ℕ).length →
      (probabilities (fun w => if w = 0 then [false, true] else [true, true]) 2
          [0, 1]).getD k 0 =
        (((List.range 2).filter
            (fun s => basisIndex
              (shotRow (fun w => if w = 0 then [false, true] else [true, true])
                [0, 1] s) = k)).length : ℚ) / 2) ∧
    (probabilities (fun w => if w = 0 then [false, true] else [true, true]) 2
        [0, 1]).sum = 1 :=
  probabilities_correct (fun w => if w = 0 then [false, true] else [true, true]) 2
    [0, 1] (by decide) (by decide) (by decide)

/-- C5: for a single-wire `PauliX`/`PauliY`/`PauliZ`/`Hadamard` observable,
`expval` returns the sample mean of `1 - 2*bit` over the column of that wire;
on an
all-zero column it returns 1, on an all-one column it returns -1. -/
theorem expval_simple_correct (st : ℕ → List Bool) (shots : ℕ) (cache : Cache)
    (name : String) (q : ℕ) (par : List Mat)
    (hname : name = "PauliX" ∨ name = "PauliY" ∨ name = "PauliZ" ∨
      name = "Hadamard") :
    expval st shots cache name [q] par = .ok (mean ((st q).map pmVal)) ∧
    (st q = List.replicate shots false → 0 < shots →
      expval st shots cache name [q] par = .ok 1) ∧
    (st q = List.replicate shots true → 0 < shots →
      expval st shots cache name [q] par = .ok (-1)) := by
  have hni : name ≠ "Identity" := by
    rcases hname with h | h | h | h <;> subst h <;> decide
  have hnh : name ≠ "Hermitian" := by
    rcases hname with h | h | h | h <;> subst h <;> decide
  refine ⟨expval_single_plain st shots cache name q par hni hnh, ?_, ?_⟩
  · intro hcol hs
    rw [expval_single_plain st shots cache name q par hni hnh, hcol,
      mean_map_replicate_pmVal shots hs false]
    simp [pmVal]
  · intro hcol hs
    rw [expval_single_plain st shots cache name q par hni hnh, hcol,
      mean_map_replicate_pmVal shots hs true]
    norm_num [pmVal]

/-- Witness for C5: a three-shot all-zero column gives `expval = 1`. -/
theorem expval_simple_correct_witness :
    expval (fun _ => [false, false, false]) 3 [] "PauliZ" [0] [] =
      .ok (mean (([false, false, false] : List Bool).map pmVal)) ∧
    ((fun _ => [false, false, false] : ℕ → List Bool) 0 =
        List.replicate 3 false → 0 < 3 →
      expval (fun _ => [false, false, false]) 3 [] "PauliZ" [0] [] = .ok 1) ∧
    ((fun _ => [false, false, false] : ℕ → List Bool) 0 =
        List.replicate 3 true → 0 < 3 →
      expval (fun _ => [false, false, false]) 3 [] "PauliZ" [0] [] = .ok (-1)) :=
  expval_simple_correct (fun _ => [false, false, false]) 3 [] "PauliZ" 0 []
    (by decide)

/-- C3: `expval` of a cached Hermitian observable: on one wire it returns
`w0*p0 + w1*p1` with `p0 = (1 + mean(1-2*bit))/2`, `p1 = (1 - mean(1-2*bit))/2`
from the column of that wire; on several wires it returns the cached eigenvalue
vector dotted with `probabilities` over those wires. -/
theorem expval_hermitian_correct (st : ℕ → List Bool) (shots : ℕ)
    (cache : Cache) (H : Mat) :
    (∀ q w0 w1 U, findEntry cache (flatten H) = some ⟨[w0, w1], U⟩ →
      expval st shots cache "Hermitian" [q] [H] =
        .ok (w0 * ((1 + mean ((st q).map pmVal)) / 2)
          + w1 * ((1 - mean ((st q).map pmVal)) / 2))) ∧
    (∀ wires w U, 1 < wires.length →
      findEntry cache (flatten H) = some ⟨w, U⟩ →
      expval st shots cache "Hermitian" wires [H] =
        .ok (dot w (probabilities st shots wires))) := by
  constructor
  · intro q w0 w1 U h
    simp [expval, h]
  · intro wires w U hws h
    have h1 : wires.length ≠ 1 := by omega
    simp [expval, h1, h]

/-- Witness for C3 with a one-entry cache holding eigenvalues `[5, 7]`. -/
theorem expval_hermitian_correct_witness :
    expval (fun _ => [false]) 1 [([((1 : ℚ), (0 : ℚ)), (0, 0), (0, 0), (-1, 0)],
        ⟨[5, 7], []⟩)] "Hermitian" [0] [[[(1, 0), (0, 0)], [(0, 0), (-1, 0)]]] =
      .ok (5 * ((1 + mean (([false] : List Bool).map pmVal)) / 2)
        + 7 * ((1 - mean (([false] : List Bool).map pmVal)) / 2)) :=
  (expval_hermitian_correct (fun _ => [false]) 1
    [([((1 : ℚ), (0 : ℚ)), (0, 0), (0, 0), (-1, 0)], ⟨[5, 7], []⟩)]
    [[(1, 0), (0, 0)], [(0, 0), (-1, 0)]]).1 0 5 7 [] (by decide)

/-- C4: `var` mirrors the branching of `expval`: `Identity` gives exactly 0;
single-wire `PauliX`/`PauliY`/`PauliZ`/`Hadamard` give the variance of the
`1 - 2*bit` samples; a cached Hermitian (single- or multi-wire) gives
`(w² ⬝ p) - (w ⬝ p)²` over the derived probabilities. -/
theorem var_correct (st : ℕ → List Bool) (shots : ℕ) (cache : Cache)
    (H : Mat) :
    (∀ q par, var st shots cache "Identity" [q] par = .ok 0) ∧
    (∀ name q par,
      (name = "PauliX" ∨ name = "PauliY" ∨ name = "PauliZ" ∨
        name = "Hadamard") →
      var st shots cache name [q] par = .ok (variance ((st q).map pmVal))) ∧
    (∀ q w U, findEntry cache (flatten H) = some ⟨w, U⟩ →
      var st shots cache "Hermitian" [q] [H] =
        .ok (dot (w.map (fun x => x ^ 2))
            [(1 + mean ((st q).map pmVal)) / 2, (1 - mean ((st q).map pmVal)) / 2]
          - (dot w [(1 + mean ((st q).map pmVal)) / 2,
              (1 - mean ((st q).map pmVal)) / 2]) ^ 2)) ∧
    (∀ wires w U, 1 < wires.length →
      findEntry cache (flatten H) = some ⟨w, U⟩ →
      var st shots cache "Hermitian" wires [H] =
        .ok (dot (w.map (fun x => x ^ 2)) (probabilities st shots wires)
          - (dot w (probabilities st shots wires)) ^ 2)) := by
  refine ⟨?_, ?_, ?_, ?_⟩
  · intro q par
    simp [var]
  · intro name q par hname
    have hni : name ≠ "Identity" := by
      rcases hname with h | h | h | h <;> subst h <;> decide
    rcases hname with h | h | h | h <;> subst h <;> simp [var]
  · intro q w U h
    simp [var, h]
  · intro wires w U hws h
    have h1 : wires.length ≠ 1 := by omega
    simp [var, varTail, h1, h]

/-- Witness for C4, covering the Pauli and cached-Hermitian hypotheses. -/
theorem var_correct_witness :
    var (fun _ => [true, false]) 2 [([((1 : ℚ), (0 : ℚ)), (0, 0), (0, 0),
        (-1, 0)], ⟨[5, 7], []⟩)] "PauliZ" [0] [] =
      .ok (variance (([true, false] : List Bool).map pmVal)) ∧
    var (fun _ => [true, false]) 2 [([((1 : ℚ), (0 : ℚ)), (0, 0), (0, 0),
        (-1, 0)], ⟨[5, 7], []⟩)] "Hermitian" [0]
        [[[(1, 0), (0, 0)], [(0, 0), (-1, 0)]]] =
      .ok (dot (([5, 7] : List ℚ).map (fun x => x ^ 2))
          [(1 + mean (([true, false] : List Bool).map pmVal)) / 2,
            (1 - mean (([true, false] : List Bool).map pmVal)) / 2]
        - (dot ([5, 7] : List ℚ)
            [(1 + mean (([true, false] : List Bool).map pmVal)) / 2,
              (1 - mean (([true, false] : List Bool).map pmVal)) / 2]) ^ 2) :=
  ⟨(var_correct (fun _ => [true, false]) 2 [([((1 : ℚ), (0 : ℚ)), (0, 0), (0, 0),
      (-1, 0)], ⟨[5, 7], []⟩)] [[(1, 0), (0, 0)], [(0, 0), (-1, 0)]]).2.1
      "PauliZ" 0 [] (by decide),
   (var_correct (fun _ => [true, false]) 2 [([((1 : ℚ), (0 : ℚ)), (0, 0), (0, 0),
      (-1, 0)], ⟨[5, 7], []⟩)] [[(1, 0), (0, 0)], [(0, 0), (-1, 0)]]).2.2.1
      0 [5, 7] [] (by decide)⟩

/-- C1 counterexample: a multi-wire `PauliZ` request makes `expval` and `var`
fall off the end and return Python `None`; no error of any kind is raised. -/
theorem multiwire_nonhermitian_counterexample :
    expval (fun _ => [false]) 1 [] "PauliZ" [0, 1] [] = .pyNone ∧
    var (fun _ => [false]) 1 [] "PauliZ" [0, 1] [] = .pyNone := by
  constructor
  · simp [expval]
  · simp [var, varTail]

/-- C1 (amended): for every multi-wire observable whose name is not
`"Hermitian"`, `expval` and `var` return Python `None` silently — no
unsupported-observable error is raised and no numeric value is returned. -/
theorem multiwire_nonhermitian_silent (st : ℕ → List Bool) (shots : ℕ)
    (cache : Cache) (name : String) (wires : List ℕ) (par : List Mat)
    (hws : 1 < wires.length) (hname : name ≠ "Hermitian") :
    expval st shots cache name wires par = .pyNone ∧
    var st shots cache name wires par = .pyNone := by
  have h1 : wires.length ≠ 1 := by omega
  constructor
  · simp [expval, h1, hname]
  · simp [var, varTail, h1, hname]

/-- Witness for the amended C1 on a concrete two-wire `PauliX` call. -/
theorem multiwire_nonhermitian_silent_witness :
    expval (fun _ => [true]) 1 [] "PauliX" [0, 1] [] = .pyNone ∧
    var (fun _ => [true]) 1 [] "PauliX" [0, 1] [] = .pyNone :=
  multiwire_nonhermitian_silent (fun _ => [true]) 1 [] "PauliX" [0, 1] []
    (by decide) (by decide)

/-! ## Eigen-cache lemmas -/

lemma findEntry_append_some (c c' : Cache) (k : Key) (d : EigData)
    (h : findEntry c k = some d) : findEntry (c ++ c') k = some d := by
  induction c with
  | nil => simp [findEntry] at h
  | cons e rest ih =>
      obtain ⟨k1, d1⟩ := e
      by_cases hk : k1 = k
      · simpa [findEntry, hk] using h
      · rw [findEntry, if_neg hk] at h
        simpa [findEntry, hk] using ih h

lemma findEntry_append_fresh (c : Cache) (k : Key) (d : EigData)
    (h : findEntry c k = none) : findEntry (c ++ [(k, d)]) k = some d := by
  induction c with
  | nil => simp [findEntry]
  | cons e rest ih =>
      obtain ⟨k1, d1⟩ := e
      by_cases hk : k1 = k
      · rw [findEntry, if_pos hk] at h
        exact absurd h (by simp)
      · rw [findEntry, if_neg hk] at h
        simpa [findEntry, hk] using ih h

lemma processHermitian_preserves (eigh : Mat → List ℚ × Mat) (cache : Cache)
    (H : Mat) (k : Key) (d : EigData) (h : findEntry cache k = some d) :
    findEntry (processHermitian eigh cache H).2 k = some d := by
  unfold processHermitian
  cases hfind : findEntry cache (flatten H) with
  | some d' => simpa [hfind] using h
  | none => simpa [hfind] using findEntry_append_some cache _ k d h

lemma gatesForObs_preserves (eigh : Mat → List ℚ × Mat) (cache : Cache)
    (e : Observable) (k : Key) (d : EigData) (h : findEntry cache k = some d) :
    findEntry (gatesForObs eigh cache e).2 k = some d := by
  unfold gatesForObs
  split_ifs with h1 h2 h3 h4
  · simpa using h
  · simpa using h
  · simpa using h
  · simpa using processHermitian_preserves eigh cache e.par.headI k d h
  · simpa using h

/-- C9: the eigen-cache only grows: an entry present before the
basis-rotation loop of `pre_measure` is still present, unchanged, afterwards;
re-processing a matrix whose flattened key is already cached retrieves the
stored eigendecomposition and leaves the cache untouched; and processing the
same matrix content a second time always returns the decomposition stored by
the first processing, with no further diagonalization recorded. -/
theorem eigen_cache_invariant (eigh : Mat → List ℚ × Mat)
    (queue : List Observable) (cache : Cache) :
    (∀ k d, findEntry cache k = some d →
      findEntry (preMeasureGates eigh queue cache).2 k = some d) ∧
    (∀ H d, findEntry cache (flatten H) = some d →
      processHermitian eigh cache H = (d, cache)) ∧
    (∀ H, processHermitian eigh (processHermitian eigh cache H).2 H =
      ((processHermitian eigh cache H).1, (processHermitian eigh cache H).2)) := by
  refine ⟨?_, ?_, ?_⟩
  · intro k d h
    induction queue generalizing cache with
    | nil => simpa [preMeasureGates] using h
    | cons e rest ih =>
        simp only [preMeasureGates]
        exact ih _ (gatesForObs_preserves eigh cache e k d h)
  · intro H d h
    simp [processHermitian, h]
  · intro H
    unfold processHermitian
    cases hfind : findEntry cache (flatten H) with
    | some d => simp [hfind]
    | none => simp [hfind, findEntry_append_fresh cache (flatten H) _ hfind]

/-- Witness for C9 on a one-observable queue and a one-entry cache. -/
theorem eigen_cache_invariant_witness :
    findEntry (preMeasureGates (fun _ => ([1, -1], []))
        [⟨"Hermitian", [0], [[[(0, 0), (1, 0)], [(1, 0), (0, 0)]]]⟩]
        [([((3 : ℚ), (0 : ℚ))], ⟨[3], []⟩)]).2 [((3 : ℚ), (0 : ℚ))] =
      some ⟨[3], []⟩ :=
  (eigen_cache_invariant (fun _ => ([1, -1], []))
      [⟨"Hermitian", [0], [[[(0, 0), (1, 0)], [(1, 0), (0, 0)]]]⟩]
      [([((3 : ℚ), (0 : ℚ))], ⟨[3], []⟩)]).1
    [((3 : ℚ), (0 : ℚ))] ⟨[3], []⟩ (by decide)

/-- C6: the basis-rotation gates `pre_measure` appends per observable:
nothing for `Identity`/`PauliZ`; `Hadamard` for `PauliX`; `PauliZ`, `S`,
`Hadamard` for `PauliY`; `RY(-π/4)` for `Hadamard`; and, for a Hermitian
matrix, the conjugate transpose of its eigenvector matrix (cached, or freshly
computed by `eigh` and stored) as a generic `QubitUnitary` on its wires. -/
theorem pre_measure_rotations (eigh : Mat → List ℚ × Mat) (cache : Cache)
    (w : List ℕ) (p : List Mat) (H : Mat) :
    gatesForObs eigh cache ⟨"Identity", w, p⟩ = ([], cache) ∧
    gatesForObs eigh cache ⟨"PauliZ", w, p⟩ = ([], cache) ∧
    gatesForObs eigh cache ⟨"PauliX", w, p⟩ = ([.g "Hadamard" w], cache) ∧
    gatesForObs eigh cache ⟨"PauliY", w, p⟩ =
      ([.g "PauliZ" w, .g "S" w, .g "Hadamard" w], cache) ∧
    gatesForObs eigh cache ⟨"Hadamard", w, p⟩ = ([.ryPi w (-1 / 4)], cache) ∧
    (∀ d, findEntry cache (flatten H) = some d →
      gatesForObs eigh cache ⟨"Hermitian", w, [H]⟩ =
        ([.qubitUnitary w (conjT d.eigvec)], cache)) ∧
    (findEntry cache (flatten H) = none →
      gatesForObs eigh cache ⟨"Hermitian", w, [H]⟩ =
        ([.qubitUnitary w (conjT (eigh H).2)],
          cache ++ [(flatten H, ⟨(eigh H).1, (eigh H).2⟩)])) := by
  refine ⟨?_, ?_, ?_, ?_, ?_, ?_, ?_⟩
  · simp [gatesForObs]
  · simp [gatesForObs]
  · simp [gatesForObs]
  · simp [gatesForObs]
  · simp [gatesForObs]
  · intro d h
    simp [gatesForObs, processHermitian, h]
  · intro h
    simp [gatesForObs, processHermitian, h]

/-- Witness for C6: the cache-miss Hermitian case at a concrete matrix. -/
theorem pre_measure_rotations_witness :
    gatesForObs (fun _ => ([1, -1], [[(1, 0), (1, 0)], [(1, 0), (-1, 0)]])) []
        ⟨"Hermitian", [0], [[[(0, 0), (1, 0)], [(1, 0), (0, 0)]]]⟩ =
      ([.qubitUnitary [0]
          (conjT ((fun (_ : Mat) =>
            (([1, -1] : List ℚ),
              ([[(1, 0), (1, 0)], [(1, 0), (-1, 0)]] : Mat)))
            [[(0, 0), (1, 0)], [(1, 0), (0, 0)]]).2)],
        [] ++ [(flatten [[(0, 0), (1, 0)], [(1, 0), (0, 0)]],
          ⟨((fun (_ : Mat) => (([1, -1] : List ℚ),
              ([[(1, 0), (1, 0)], [(1, 0), (-1, 0)]] : Mat)))
            [[(0, 0), (1, 0)], [(1, 0), (0, 0)]]).1,
           ((fun (_ : Mat) => (([1, -1] : List ℚ),
              ([[(1, 0), (1, 0)], [(1, 0), (-1, 0)]] : Mat)))
            [[(0, 0), (1, 0)], [(1, 0), (0, 0)]]).2⟩)]) :=
  (pre_measure_rotations
      (fun _ => ([1, -1], [[(1, 0), (1, 0)], [(1, 0), (-1, 0)]])) [] [0] []
      [[(0, 0), (1, 0)], [(1, 0), (0, 0)]]).2.2.2.2.2.2 (by decide)

/-- C10: `expval` and `var` on a `"Hermitian"` observable read the eigen-cache
without a guard: when the flattened matrix key is absent they hit the
`KeyError` branch (no fresh diagonalization happens — neither function even
receives `eigh`), and they return a value only when the key is present. -/
theorem hermitian_requires_cache (st : ℕ → List Bool) (shots : ℕ)
    (cache : Cache) (wires : List ℕ) (H : Mat) :
    (findEntry cache (flatten H) = none →
      expval st shots cache "Hermitian" wires [H] = .keyError ∧
      var st shots cache "Hermitian" wires [H] = .keyError) ∧
    (∀ x, expval st shots cache "Hermitian" wires [H] = .ok x →
      ∃ d, findEntry cache (flatten H) = some d) ∧
    (∀ x, var st shots cache "Hermitian" wires [H] = .ok x →
      ∃ d, findEntry cache (flatten H) = some d) := by
  refine ⟨?_, ?_, ?_⟩
  · intro h
    constructor
    · by_cases h1 : wires.length = 1 <;> simp [expval, h1, h]
    · by_cases h1 : wires.length = 1 <;> simp [var, varTail, h1, h]
  · intro x hx
    cases hfind : findEntry cache (flatten H) with
    | some d => exact ⟨d, rfl⟩
    | none =>
        by_cases h1 : wires.length = 1 <;> simp [expval, h1, hfind] at hx
  · intro x hx
    cases hfind : findEntry cache (flatten H) with
    | some d => exact ⟨d, rfl⟩
    | none =>
        by_cases h1 : wires.length = 1 <;> simp [var, varTail, h1, hfind] at hx

/-- Witness for C10: with an empty cache the `KeyError` branch is reached. -/
theorem hermitian_requires_cache_witness :
    expval (fun _ => [false]) 1 [] "Hermitian" [0]
        [[[(0, 0), (1, 0)], [(1, 0), (0, 0)]]] = .keyError ∧
    var (fun _ => [false]) 1 [] "Hermitian" [0]
        [[[(0, 0), (1, 0)], [(1, 0), (0, 0)]]] = .keyError :=
  (hermitian_requires_cache (fun _ => [false]) 1 [] [0]
      [[(0, 0), (1, 0)], [(1, 0), (0, 0)]]).1 (by decide)

/-! ## Device-string parsing lemmas -/

lemma matchQubitsAt_nil : matchQubitsAt [] = none := rfl

lemma searchQubits_eq_none_iff (cs : List Char) :
    searchQubits cs = none ↔ ∀ i, matchQubitsAt (cs.drop i) = none := by
  induction cs with
  | nil => simp [searchQubits, matchQubitsAt_nil]
  | cons c rest ih =>
      cases hm : matchQubitsAt (c :: rest) with
      | some n =>
          simp only [searchQubits, hm]
          constructor
          · intro h; cases h
          · intro h
            have h0 := h 0
            rw [List.drop_zero, hm] at h0
            cases h0
      | none =>
          simp only [searchQubits, hm]
          rw [ih]
          constructor
          · intro h i
            cases i with
            | zero => simpa using hm
            | succ i => simpa using h i
          · intro h i
            simpa using h (i + 1)

lemma searchQubits_eq_some_iff (cs : List Char) (n : ℕ) :
    searchQubits cs = some n ↔
      ∃ i, matchQubitsAt (cs.drop i) = some n ∧
        ∀ j < i, matchQubitsAt (cs.drop j) = none := by
  induction cs with
  | nil => simp [searchQubits, matchQubitsAt_nil]
  | cons c rest ih =>
      cases hm : matchQubitsAt (c :: rest) with
      | some m =>
          simp only [searchQubits, hm]
          constructor
          · intro h
            refine ⟨0, ?_, fun j hj => absurd hj (Nat.not_lt_zero j)⟩
            rw [List.drop_zero, hm]
            exact h
          · rintro ⟨i, hi, hj⟩
            cases i with
            | zero =>
                rw [List.drop_zero, hm] at hi
                exact hi
            | succ i =>
                have h0 := hj 0 (Nat.succ_pos i)
                rw [List.drop_zero, hm] at h0
                cases h0
      | none =>
          simp only [searchQubits, hm]
          rw [ih]
          constructor
          · rintro ⟨i, hi, hj⟩
            refine ⟨i + 1, by simpa using hi, fun j hjlt => ?_⟩
            cases j with
            | zero => simpa using hm
            | succ j => simpa using hj j (by omega)
          · rintro ⟨i, hi, hj⟩
            cases i with
            | zero =>
                rw [List.drop_zero, hm] at hi
                cases hi
            | succ i =>
                refine ⟨i, by simpa using hi, fun j hjlt => ?_⟩
                simpa using hj (j + 1) (by omega)

lemma exists_match_iff_hasQubitSubstring (cs : List Char) :
    (∃ i n, matchQubitsAt (cs.drop i) = some n) ↔ hasQubitSubstring cs := by
  constructor
  · rintro ⟨i, n, hm⟩
    rcases hcase : (cs.drop i).dropWhile Char.isDigit with _ | ⟨c, rest⟩
    · simp [matchQubitsAt, hcase] at hm
    · by_cases hds : (cs.drop i).takeWhile Char.isDigit = []
      · simp [matchQubitsAt, hds] at hm
      · have hcq : c = 'q' ∨ c = 'Q' := by
          by_contra hcq
          simp [matchQubitsAt, hds, hcase, hcq] at hm
        refine ⟨cs.take i, (cs.drop i).takeWhile Char.isDigit, c, rest, ?_, hds,
          fun x hx => List.mem_takeWhile_imp hx, hcq⟩
        conv_lhs => rw [← List.take_append_drop i cs,
          ← List.takeWhile_append_dropWhile Char.isDigit (cs.drop i), hcase]
        simp [List.append_assoc]
  · rintro ⟨pre, ds, c, rest, hcs, hds, hdig, hcq⟩
    obtain ⟨ds₀, d, rfl⟩ : ∃ L b, ds = L ++ [b] := by
      rcases List.eq_nil_or_concat ds with h | ⟨L, b, h⟩
      · exact absurd h hds
      · exact ⟨L, b, by simpa [List.concat_eq_append] using h⟩
    refine ⟨(pre ++ ds₀).length, ?_⟩
    have hdrop : cs.drop (pre ++ ds₀).length = d :: c :: rest := by
      rw [hcs, show pre ++ (ds₀ ++ [d]) ++ c :: rest
        = (pre ++ ds₀) ++ (d :: c :: rest) by simp]
      exact List.drop_left _ _
    rw [hdrop]
    have hd : d.isDigit := hdig d (by simp)
    have hcnd : ¬ c.isDigit := by rcases hcq with rfl | rfl <;> decide
    refine ⟨d.toNat - '0'.toNat, ?_⟩
    simp [matchQubitsAt, List.takeWhile_cons, List.dropWhile_cons, hd, hcnd, hcq]

/-- C7: device construction fails exactly when the shot count is non-positive,
or the device string has no digit run immediately followed by `q`/`Q`, or the
device argument is neither a string nor a graph; and on a string accepted with
positive shots, the wire count is the value parsed at the leftmost such
occurrence. -/
theorem qvmInit_correct (device : DeviceArg) (shots : ℤ) :
    ((∃ msg, qvmInit device shots = .error msg) ↔
      (shots ≤ 0 ∨ (∃ s, device = .str s ∧ ¬ hasQubitSubstring s.toList) ∨
        device = .other)) ∧
    (∀ s n i, device = .str s → 0 < shots →
      matchQubitsAt (s.toList.drop i) = some n →
      (∀ j < i, matchQubitsAt (s.toList.drop j) = none) →
      qvmInit device shots = .ok n) := by
  constructor
  · by_cases hs : shots ≤ 0
    · exact ⟨fun _ => Or.inl hs,
        fun _ => ⟨"Number of shots must be a positive integer.",
          by simp [qvmInit, hs]⟩⟩
    · cases device with
      | graph m =>
          constructor
          · rintro ⟨msg, hmsg⟩
            simp [qvmInit, hs] at hmsg
          · rintro (h | ⟨s', hss', _⟩ | h)
            · exact absurd h hs
            · cases hss'
            · cases h
      | str s =>
          cases hsearch : searchQubits s.toList with
          | some n =>
              have hhas : hasQubitSubstring s.toList := by
                rw [← exists_match_iff_hasQubitSubstring]
                obtain ⟨i, hi, _⟩ := (searchQubits_eq_some_iff _ n).mp hsearch
                exact ⟨i, n, hi⟩
              constructor
              · rintro ⟨msg, hmsg⟩
                rw [qvmInit] at hmsg
                simp only [String.toList] at hsearch
                simp [hs, hsearch] at hmsg
              · rintro (h | ⟨s', hss', hnot⟩ | h)
                · exact absurd h hs
                · injection hss' with h'
                  subst h'
                  exact absurd hhas hnot
                · cases h
          | none =>
              have hnot : ¬ hasQubitSubstring s.toList := by
                rw [← exists_match_iff_hasQubitSubstring]
                rintro ⟨i, m, hi⟩
                rw [(searchQubits_eq_none_iff s.toList).mp hsearch i] at hi
                cases hi
              refine ⟨fun _ => Or.inr (Or.inl ⟨s, rfl, hnot⟩), fun _ =>
                ⟨"QVM device string does not indicate the number of qubits!", ?_⟩⟩
              rw [qvmInit]
              simp only [String.toList] at hsearch
              simp [hs, hsearch]
      | other =>
          exact ⟨fun _ => Or.inr (Or.inr rfl),
            fun _ => ⟨"Required argument device must be a string corresponding to a valid QVM quantum computer, or a NetworkX graph object.",
              by simp [qvmInit, hs]⟩⟩
  · rintro s n i rfl hpos hm hj
    have hne : ¬ shots ≤ 0 := by omega
    have hsearch : searchQubits s.toList = some n :=
      (searchQubits_eq_some_iff s.toList n).mpr ⟨i, hm, hj⟩
    rw [qvmInit]
    simp only [String.toList] at hsearch
    simp [hne, hsearch]

/-- Witness for C7: `"2q-qvm"` with 5 shots yields 2 wires; a non-string,
non-graph argument is rejected. -/
theorem qvmInit_correct_witness :
    qvmInit (.str "2q-qvm") 5 = .ok 2 ∧
    (∃ msg, qvmInit .other 5 = .error msg) :=
  ⟨(qvmInit_correct (.str "2q-qvm") 5).2 "2q-qvm" 2 0 rfl (by decide)
      (by decide) (fun j hj => absurd hj (by omega)),
   (qvmInit_correct .other 5).1.mpr (Or.inr (Or.inr rfl))⟩

/-- C8 (spec-modelled): `sample` rejects a zero, negative, or non-integral
requested count `n`; for a positive integer `n` at most the shot count it
returns exactly `n` values, each in `{-1, +1}` for a simple observable and
each drawn from the cached eigenvalue list for a `"Hermitian"` observable. -/
theorem sample_correct (st : ℕ → List Bool) (shots : ℕ) (cache : Cache)
    (name : String) (wires : List ℕ) (par : List Mat) (n : ℚ) :
    (n ≤ 0 ∨ n.den ≠ 1 →
      ∃ msg, sample st shots cache name wires par n = .error msg) ∧
    (∀ k : ℕ, n = (k : ℚ) → 0 < k → k ≤ shots →
      (st wires.headI).length = shots → name ≠ "Hermitian" →
      ∃ xs, sample st shots cache name wires par n = .ok xs ∧
        xs.length = k ∧ ∀ x ∈ xs, x = 1 ∨ x = -1) ∧
    (∀ k : ℕ, n = (k : ℚ) → 0 < k → k ≤ shots → name = "Hermitian" →
      ∀ d, findEntry cache (flatten par.headI) = some d →
        d.eigval.length = 2 ^ wires.length →
      ∃ xs, sample st shots cache name wires par n = .ok xs ∧
        xs.length = k ∧ ∀ x ∈ xs, x ∈ d.eigval) := by
  refine ⟨?_, ?_, ?_⟩
  · intro h
    exact ⟨"The number of samples must be a positive integer.",
      by rw [sample, if_pos h]⟩
  · rintro k rfl hk hks hlen hname
    have hcond : ¬ ((k : ℚ) ≤ 0 ∨ ((k : ℚ)).den ≠ 1) := by
      push_neg
      refine ⟨?_, by rw [Rat.den_natCast]⟩
      exact_mod_cast hk
    have hnum : ((k : ℚ)).num.toNat = k := by
      rw [Rat.num_natCast, Int.toNat_natCast]
    rw [sample, if_neg hcond, if_neg hname]
    refine ⟨_, rfl, ?_, ?_⟩
    · rw [hnum, List.length_take, List.length_map, hlen]
      exact Nat.min_eq_left hks
    · intro x hx
      have hx0 := List.take_subset _ _ hx
      obtain ⟨b, _, rfl⟩ := List.mem_map.mp hx0
      cases b
      · left; norm_num [pmVal]
      · right; norm_num [pmVal]
  · rintro k rfl hk hks rfl d hfind hlen
    have hcond : ¬ ((k : ℚ) ≤ 0 ∨ ((k : ℚ)).den ≠ 1) := by
      push_neg
      refine ⟨?_, by rw [Rat.den_natCast]⟩
      exact_mod_cast hk
    have hnum : ((k : ℚ)).num.toNat = k := by
      rw [Rat.num_natCast, Int.toNat_natCast]
    rw [sample, if_neg hcond, if_pos rfl, hfind]
    refine ⟨_, rfl, ?_, ?_⟩
    · rw [hnum, List.length_take, List.length_map, List.length_range]
      exact Nat.min_eq_left hks
    · intro x hx
      have hx0 := List.take_subset _ _ hx
      obtain ⟨s, _, rfl⟩ := List.mem_map.mp hx0
      have hidx : basisIndex (shotRow st wires s) < d.eigval.length := by
        rw [hlen, ← length_shotRow st wires s]
        exact basisIndex_lt _
      rw [List.getD_eq_getElem d.eigval 0 hidx]
      exact List.getElem_mem hidx

/-- Witness for C8: one sample of `PauliZ` from a one-shot device. -/
theorem sample_correct_witness :
    (∃ xs, sample (fun _ => [false]) 1 [] "PauliZ" [0] [] 1 = .ok xs ∧
      xs.length = 1 ∧ ∀ x ∈ xs, x = 1 ∨ x = -1) ∧
    (∃ msg, sample (fun _ => [false]) 1 [] "PauliZ" [0] [] 0 = .error msg) :=
  ⟨(sample_correct (fun _ => [false]) 1 [] "PauliZ" [0] [] 1).2.1 1 (by norm_num)
      (by decide) (by decide) (by decide) (by decide),
   (sample_correct (fun _ => [false]) 1 [] "PauliZ" [0] [] 0).1
      (Or.inl (by norm_num))⟩

end QVM
